import Mathlib

/-!
# Verification of the pycas CAS chunk reader

Shallow embedding of `src/pycas/cas_reader.py`. Byte buffers are `List Nat`
(each entry a byte value, `< 256` where a claim needs it). The parser
(`CASReader.read`), the derivation operations (`to_byte_array`,
`get_all_chunks_as_bytes`, `get_metadata`, `get_data_blocks`,
`get_chunk_info`, `dump_chunks`) and the selection-spec parser
(`parse_chunk_selection`) are translated definition-for-definition; theorems
below settle the frozen claims about them.
-/

namespace PyCAS

/-- Little-endian unsigned 16-bit read, `struct.unpack('<H', [b0, b1])`. -/
def le16 (b0 b1 : Nat) : Nat := b0 + 256 * b1

/-- Little-endian unsigned 16-bit write, `struct.pack('<H', n)`.
`struct.pack` raises for `n ≥ 2^16`; for the values the reader ever packs
(header fields reconstructed by `le16` from single bytes) `n < 2^16`, where
this definition agrees with it. -/
def pack16 (n : Nat) : List Nat := [n % 256, n / 256 % 256]

/-- `ChunkType.FUJI.value = b'FUJI'` (tape description). -/
def FUJI : List Nat := [70, 85, 74, 73]

/-- `ChunkType.BAUD.value = b'baud'` (transmission baudrate). -/
def BAUD : List Nat := [98, 97, 117, 100]

/-- `ChunkType.DATA.value = b'data'` (standard SIO record). -/
def DATA : List Nat := [100, 97, 116, 97]

/-- CAS chunk header structure (8 bytes): 4-byte type code, 2-byte
little-endian length, 2-byte little-endian aux data. -/
structure ChunkHeader where
  chunk_type : List Nat
  length : Nat
  aux_data : Nat
deriving DecidableEq, Repr

/-- Complete CAS chunk with header and payload bytes. -/
structure Chunk where
  header : ChunkHeader
  data : List Nat
deriving DecidableEq, Repr

/-- Parser state of `CASReader` after `read`: the parsed chunk list and the
`data_blocks` list appended to for every `data` chunk. -/
structure CASReader where
  chunks : List Chunk
  data_blocks : List (List Nat)
deriving DecidableEq, Repr

/-- One pass of the `CASReader.read` loop over the bytes remaining at the
cursor.  The `fuel` argument only bounds the recursion; `read` passes the
buffer length, which the proofs below show is always sufficient (each
iteration consumes at least 8 bytes).  Mirrors the loop body: stop if fewer
than 8 bytes remain; read the header; stop if fewer than `length` bytes
remain; otherwise slice the payload, emit the chunk, and record the payload
in `data_blocks` when the type code is `b'data'`. -/
def readAuxF : Nat → List Nat → List Chunk × List (List Nat)
  | fuel + 1, t0 :: t1 :: t2 :: t3 :: l0 :: l1 :: a0 :: a1 :: rest =>
    if le16 l0 l1 ≤ rest.length then
      let res := readAuxF fuel (rest.drop (le16 l0 l1))
      (⟨⟨[t0, t1, t2, t3], le16 l0 l1, le16 a0 a1⟩, rest.take (le16 l0 l1)⟩ :: res.1,
       if [t0, t1, t2, t3] = DATA then rest.take (le16 l0 l1) :: res.2 else res.2)
    else ([], [])
  | _, _ => ([], [])

/-- `CASReader.read`, with the file bytes supplied directly (file I/O is a
collaborator concern): parse the whole buffer into chunks and data blocks. -/
def read (file_data : List Nat) : CASReader :=
  ⟨(readAuxF file_data.length file_data).1, (readAuxF file_data.length file_data).2⟩

/-- Any fuel at least the buffer length gives the same parse. -/
theorem readAuxF_congr : ∀ (f1 f2 : Nat) (buf : List Nat),
    buf.length ≤ f1 → buf.length ≤ f2 → readAuxF f1 buf = readAuxF f2 buf := by
  intro f1
  induction f1 with
  | zero =>
    intro f2 buf h1 _
    cases buf with
    | nil => cases f2 <;> rfl
    | cons a l => simp at h1
  | succ f ih =>
    intro f2 buf h1 h2
    match buf, f2 with
    | [], 0 => rfl
    | a :: l, 0 => simp at h2
    | [], g + 1 => rfl
    | [t0], g + 1 => rfl
    | [t0, t1], g + 1 => rfl
    | [t0, t1, t2], g + 1 => rfl
    | [t0, t1, t2, t3], g + 1 => rfl
    | [t0, t1, t2, t3, l0], g + 1 => rfl
    | [t0, t1, t2, t3, l0, l1], g + 1 => rfl
    | [t0, t1, t2, t3, l0, l1, a0], g + 1 => rfl
    | t0 :: t1 :: t2 :: t3 :: l0 :: l1 :: a0 :: a1 :: rest, g + 1 =>
      simp only [List.length_cons] at h1 h2
      by_cases hlen : le16 l0 l1 ≤ rest.length
      · have hdrop : (rest.drop (le16 l0 l1)).length ≤ f := by
          simp only [List.length_drop]; omega
        have hdrop2 : (rest.drop (le16 l0 l1)).length ≤ g := by
          simp only [List.length_drop]; omega
        simp only [readAuxF, hlen, if_true, ih g (rest.drop (le16 l0 l1)) hdrop hdrop2]
      · simp only [readAuxF, hlen, if_false]

/-- Serialized form of one chunk, as `get_all_chunks_as_bytes` emits it:
4-byte type code, packed length, packed aux data, then the payload. -/
def serializeChunk (c : Chunk) : List Nat :=
  c.header.chunk_type ++ pack16 c.header.length ++ pack16 c.header.aux_data ++ c.data

/-- `CASReader.get_all_chunks_as_bytes`: rebuild the whole file image by
extending a growing byte array with every chunk's header and payload. -/
def get_all_chunks_as_bytes (r : CASReader) : List Nat :=
  r.chunks.foldl (fun result c => result ++ serializeChunk c) []

/-- `CASReader.to_byte_array`: extend a growing byte array with the payload
of every chunk whose type code is `b'data'`. -/
def to_byte_array (r : CASReader) : List Nat :=
  r.chunks.foldl (fun result c => if c.header.chunk_type = DATA then result ++ c.data else result) []

/-- `CASReader.get_data_blocks`: a copy of the `data_blocks` list. -/
def get_data_blocks (r : CASReader) : List (List Nat) :=
  r.data_blocks

/-- Strict UTF-8 decoding of a byte sequence into code points, `none` on the
first invalid sequence; models `bytes.decode('utf-8')` raising
`UnicodeDecodeError` (rejecting continuation-byte leads, overlong forms,
surrogates and values above U+10FFFF). -/
def utf8Decode : List Nat → Option (List Nat)
  | [] => some []
  | b :: rest =>
    if b < 0x80 then (utf8Decode rest).map (fun t => b :: t)
    else if b < 0xC2 then none
    else if b < 0xE0 then
      match rest with
      | b1 :: r =>
        if 0x80 ≤ b1 ∧ b1 < 0xC0 then
          (utf8Decode r).map (fun t => ((b - 0xC0) * 0x40 + (b1 - 0x80)) :: t)
        else none
      | [] => none
    else if b < 0xF0 then
      match rest with
      | b1 :: b2 :: r =>
        if (0x80 ≤ b1 ∧ b1 < 0xC0) ∧ (0x80 ≤ b2 ∧ b2 < 0xC0)
            ∧ (b = 0xE0 → 0xA0 ≤ b1) ∧ (b = 0xED → b1 < 0xA0) then
          (utf8Decode r).map (fun t => ((b - 0xE0) * 0x1000 + (b1 - 0x80) * 0x40 + (b2 - 0x80)) :: t)
        else none
      | _ => none
    else if b < 0xF5 then
      match rest with
      | b1 :: b2 :: b3 :: r =>
        if (0x80 ≤ b1 ∧ b1 < 0xC0) ∧ (0x80 ≤ b2 ∧ b2 < 0xC0) ∧ (0x80 ≤ b3 ∧ b3 < 0xC0)
            ∧ (b = 0xF0 → 0x90 ≤ b1) ∧ (b = 0xF4 → b1 < 0x90) then
          (utf8Decode r).map
            (fun t => ((b - 0xF0) * 0x40000 + (b1 - 0x80) * 0x1000 + (b2 - 0x80) * 0x40 + (b3 - 0x80)) :: t)
        else none
      | _ => none
    else none

/-- `bytes.decode('latin-1', errors='ignore')`: Latin-1 maps every byte value
to the code point of the same value and can never fail, so the `ignore`
handler never drops anything. -/
def latin1Decode (d : List Nat) : List Nat := d.map (fun b => b)

/-- The `try: data.decode('utf-8') except UnicodeDecodeError:
data.decode('latin-1', errors='ignore')` pattern of `get_metadata`. -/
def descriptionText (d : List Nat) : List Nat :=
  match utf8Decode d with
  | some t => t
  | none => latin1Decode d

/-- The metadata dictionary built by `CASReader.get_metadata`. -/
structure Metadata where
  description : Option (List Nat)
  baudrate : Nat
  chunk_count : Nat
  data_block_count : Nat
deriving DecidableEq, Repr

/-- `struct.unpack('<H', chunk.data[:2])`, used under a `len(data) >= 2`
guard. -/
def baudOf (d : List Nat) : Nat :=
  match d with
  | b0 :: b1 :: _ => le16 b0 b1
  | _ => 0

/-- One iteration of the `get_metadata` loop on the running
`(description, baudrate)` pair. -/
def metaStep (acc : Option (List Nat) × Nat) (c : Chunk) : Option (List Nat) × Nat :=
  if c.header.chunk_type = FUJI then
    (some (descriptionText c.data), acc.2)
  else if c.header.chunk_type = BAUD then
    (acc.1, if 2 ≤ c.data.length then baudOf c.data else acc.2)
  else acc

/-- `CASReader.get_metadata`: start from `description=None`, `baudrate=600`,
walk every chunk, overwriting the fields as the loop does. -/
def get_metadata (r : CASReader) : Metadata :=
  let p := r.chunks.foldl metaStep (none, 600)
  ⟨p.1, p.2, r.chunks.length, r.data_blocks.length⟩

/-- `bytes.decode('ascii', errors='ignore')`: bytes below 0x80 become their
code points, all others are dropped. -/
def asciiIgnore (d : List Nat) : List Char :=
  (d.filter (fun b => b < 128)).map Char.ofNat

/-- `bytes.decode('ascii', errors='replace')`: bytes below 0x80 become their
code points, all others become U+FFFD. -/
def asciiReplace (d : List Nat) : List Char :=
  d.map (fun b => if b < 128 then Char.ofNat b else Char.ofNat 0xFFFD)

/-- One entry of the list `CASReader.get_chunk_info` returns. -/
structure ChunkInfo where
  index : Nat
  type : List Char
  length : Nat
  aux_data : Nat
deriving DecidableEq, Repr

/-- The `for i, chunk in enumerate(self.chunks)` loop of `get_chunk_info`,
carrying the running index. -/
def chunkInfoGo : Nat → List Chunk → List ChunkInfo
  | _, [] => []
  | i, c :: cs =>
    ⟨i, asciiIgnore c.header.chunk_type, c.header.length, c.header.aux_data⟩ :: chunkInfoGo (i + 1) cs

/-- `CASReader.get_chunk_info`. -/
def get_chunk_info (r : CASReader) : List ChunkInfo :=
  chunkInfoGo 0 r.chunks

/-- Lower-case hexadecimal digits of `n`, as `f'{n:x}'` renders them. -/
def hexStr (n : Nat) : List Char := Nat.toDigits 16 n

/-- Decimal digits of `n`, as `f'{n}'` renders them. -/
def decStr (n : Nat) : List Char := Nat.toDigits 10 n

/-- Zero-pad on the left to width `w`, the `04x` / `02x` format paddings. -/
def zeroPad (w : Nat) (s : List Char) : List Char :=
  List.replicate (w - s.length) '0' ++ s

/-- `str.ljust(w)`: pad on the right with spaces to width `w`. -/
def ljust (w : Nat) (s : List Char) : List Char :=
  s ++ List.replicate (w - s.length) ' '

/-- The byte-to-character rendering of the ASCII column of `dump_chunks`:
`chr(b) if 32 <= b < 127 else '.'`. -/
def asciiRender (b : Nat) : Char :=
  if 32 ≤ b ∧ b < 127 then Char.ofNat b else '.'

/-- The offsets `range(0, len, 16)` walked by the row loop of
`dump_chunks`. -/
def rowOffsets (len : Nat) : List Nat :=
  (List.range ((len + 15) / 16)).map (fun k => k * 16)

/-- The rows of a payload dump: for each offset of `rowOffsets`, that offset
paired with the slice `data[offset : offset + 16]`. -/
def rows (d : List Nat) : List (Nat × List Nat) :=
  (rowOffsets d.length).map (fun ofs => (ofs, (d.drop ofs).take 16))

/-- One data row of the dump: offset prefix, then the hex column (padded to
48 columns) when `show_hex`, then a `|` separator and the ASCII column when
`show_ascii`, joined by single spaces. -/
def rowLine (sh sa : Bool) (ofs : Nat) (line : List Nat) : List Char :=
  List.intercalate [' ']
    ([zeroPad 4 (hexStr ofs) ++ [':']]
      ++ (if sh then [ljust 48 (List.intercalate [' '] (line.map (fun b => zeroPad 2 (hexStr b))))]
          else [])
      ++ (if sa then (if sh then [['|']] else []) ++ [line.map asciiRender] else []))

/-- The `Chunk [i] Type: ..., Length: ..., Aux: ...` header line. -/
def headerLine (idx : Nat) (c : Chunk) : List Char :=
  "Chunk [".toList ++ decStr idx ++ "] Type: ".toList ++ asciiReplace c.header.chunk_type
    ++ ", Length: ".toList ++ decStr c.header.length ++ ", Aux: ".toList
    ++ decStr c.header.aux_data

/-- The 80-dash separator line. -/
def dashLine : List Char := List.replicate 80 '-'

/-- The literal line rendered for an empty payload. -/
def emptyLine : List Char := "  (empty)".toList

/-- The lines `dump_chunks` appends for one selected chunk: header line,
dashes, then either the `(empty)` marker or the data rows, then the blank
separator line. -/
def chunkSection (idx : Nat) (c : Chunk) (sh sa : Bool) : List (List Char) :=
  headerLine idx c :: dashLine ::
    ((if c.data.isEmpty then [emptyLine] else (rows c.data).map (fun p => rowLine sh sa p.1 p.2))
      ++ [[]])

/-- The `for idx in chunk_indices` loop of `dump_chunks`: indices outside
`[0, len(chunks))` are skipped with `continue`, every other occurrence
appends that chunk's section, in list order.  Indices are `Int` because the
caller may pass any Python integers. -/
def dumpLines (r : CASReader) : List Int → Bool → Bool → List (List Char)
  | [], _, _ => []
  | idx :: restIdx, sh, sa =>
    (if h : 0 ≤ idx ∧ idx.toNat < r.chunks.length then
       chunkSection idx.toNat (r.chunks.get ⟨idx.toNat, h.2⟩) sh sa
     else [])
      ++ dumpLines r restIdx sh sa

/-- `CASReader.dump_chunks`: a `None` selection means all indices in
ascending order; the collected lines are joined with newlines. -/
def dump_chunks (r : CASReader) (chunk_indices : Option (List Int)) (sh sa : Bool) : List Char :=
  let idxs := match chunk_indices with
    | none => (List.range r.chunks.length).map (fun i => (i : Int))
    | some l => l
  List.intercalate ['\n'] (dumpLines r idxs sh sa)

/-- ASCII whitespace recognised by `str.strip()`. -/
def isSpaceChar (c : Char) : Bool :=
  c == ' ' || c == '\t' || c == '\n' || c == '\r' || c.toNat == 11 || c.toNat == 12

/-- `str.strip()`: drop leading and trailing whitespace. -/
def stripChars (l : List Char) : List Char :=
  ((l.dropWhile isSpaceChar).reverse.dropWhile isSpaceChar).reverse

/-- `str.split(sep)` for a one-character separator (so `"".split(',') = [""]`
and separators at the ends yield empty parts). -/
def splitOnChar (sep : Char) : List Char → List (List Char)
  | [] => [[]]
  | c :: rest =>
    match splitOnChar sep rest with
    | [] => [[c]]
    | h :: t => if c == sep then [] :: h :: t else (c :: h) :: t

/-- `str.split(sep, 1)` when the separator occurs: the text before the first
occurrence and the text after it. -/
def splitFirst (sep : Char) (l : List Char) : List Char × List Char :=
  (l.takeWhile (fun c => c != sep), (l.dropWhile (fun c => c != sep)).drop 1)

/-- Decimal digit test for `int()` parsing. -/
def isDigitChar (c : Char) : Bool := '0' ≤ c && c ≤ '9'

/-- Numeric value of a digit string. -/
def digitsToNat (ds : List Char) : Nat :=
  ds.foldl (fun acc c => 10 * acc + (c.toNat - 48)) 0

/-- Python `int(s)`: strip whitespace, allow one leading sign, then a
non-empty run of decimal digits; `none` models the `ValueError` raised for
anything else. -/
def pyInt (s : List Char) : Option Int :=
  match stripChars s with
  | '+' :: ds => if ds ≠ [] ∧ ds.all isDigitChar then some (digitsToNat ds : Int) else none
  | '-' :: ds => if ds ≠ [] ∧ ds.all isDigitChar then some (-(digitsToNat ds : Int)) else none
  | ds => if ds ≠ [] ∧ ds.all isDigitChar then some (digitsToNat ds : Int) else none

/-- `set.add`: the Python set is modelled as its insertion-ordered list of
distinct elements (the final `sorted(...)` erases the order anyway). -/
def setAdd (s : List Nat) (i : Nat) : List Nat :=
  if i ∈ s then s else s ++ [i]

/-- `range(lo, hi + 1)` over Python integers. -/
def intRangeIncl (lo hi : Int) : List Int :=
  (List.range (hi + 1 - lo).toNat).map (fun k => lo + k)

/-- The in-range indices one comma-delimited part adds to the selection set,
in the order the loops of `parse_chunk_selection` add them: for a part
containing `-`, every `i` of the inclusive range with `0 <= i < max_chunks`;
for a single integer, that index when in range.  `none` models the
`ValueError` from `int()` on a malformed part. -/
def partSel (part : List Char) (max_chunks : Nat) : Option (List Nat) :=
  if part.contains '-' then
    match pyInt (stripChars (splitFirst '-' part).1), pyInt (stripChars (splitFirst '-' part).2) with
    | some start_idx, some end_idx =>
      some ((((intRangeIncl start_idx end_idx).filter
        (fun i => decide (0 ≤ i) && decide (i < (max_chunks : Int))))).map Int.toNat)
    | _, _ => none
  else
    match pyInt part with
    | some idx => some (if 0 ≤ idx ∧ idx < (max_chunks : Int) then [idx.toNat] else [])
    | none => none

/-- `parse_chunk_selection`: empty spec selects every index; otherwise each
comma-delimited part is stripped and its in-range indices are added to one
shared set, and the set is returned sorted ascending.  `none` models the
propagated `ValueError` (the spec's ParseError). -/
def parse_chunk_selection (chunk_spec : List Char) (max_chunks : Nat) : Option (List Nat) :=
  if chunk_spec.isEmpty then some (List.range max_chunks)
  else
    ((splitOnChar ',' chunk_spec).foldlM
        (fun s part => (partSel (stripChars part) max_chunks).map (fun ids => ids.foldl setAdd s))
        []).map
      (List.insertionSort (· ≤ ·))

/-! ## Equations of the parser at the `read` level -/

/-- Fewer than 8 bytes at the cursor: the loop stops emitting nothing,
whatever the fuel. -/
theorem readAuxF_short : ∀ (fuel : Nat) (buf : List Nat), buf.length < 8 →
    readAuxF fuel buf = ([], []) := by
  intro fuel buf h
  match fuel, buf with
  | 0, _ => rfl
  | f + 1, [] => rfl
  | f + 1, [t0] => rfl
  | f + 1, [t0, t1] => rfl
  | f + 1, [t0, t1, t2] => rfl
  | f + 1, [t0, t1, t2, t3] => rfl
  | f + 1, [t0, t1, t2, t3, l0] => rfl
  | f + 1, [t0, t1, t2, t3, l0, l1] => rfl
  | f + 1, [t0, t1, t2, t3, l0, l1, a0] => rfl
  | f + 1, t0 :: t1 :: t2 :: t3 :: l0 :: l1 :: a0 :: a1 :: rest => simp at h; omega

/-- Single unfolding of the loop body on a buffer holding a full header. -/
theorem readAuxF_cons (fuel t0 t1 t2 t3 l0 l1 a0 a1 : Nat) (rest : List Nat) :
    readAuxF (fuel + 1) (t0 :: t1 :: t2 :: t3 :: l0 :: l1 :: a0 :: a1 :: rest) =
      if le16 l0 l1 ≤ rest.length then
        (⟨⟨[t0, t1, t2, t3], le16 l0 l1, le16 a0 a1⟩, rest.take (le16 l0 l1)⟩
            :: (readAuxF fuel (rest.drop (le16 l0 l1))).1,
         if [t0, t1, t2, t3] = DATA then
           rest.take (le16 l0 l1) :: (readAuxF fuel (rest.drop (le16 l0 l1))).2
         else (readAuxF fuel (rest.drop (le16 l0 l1))).2)
      else ([], []) := by
  rw [readAuxF]

/-- A buffer of fewer than 8 bytes parses to no chunks and no data blocks. -/
theorem read_short (buf : List Nat) (h : buf.length < 8) : read buf = ⟨[], []⟩ := by
  simp [read, readAuxF_short buf.length buf h]

/-- A declared length overrunning the remaining bytes stops the parse with
nothing emitted from this position on. -/
theorem read_stop (t0 t1 t2 t3 l0 l1 a0 a1 : Nat) (rest : List Nat)
    (h : rest.length < le16 l0 l1) :
    read (t0 :: t1 :: t2 :: t3 :: l0 :: l1 :: a0 :: a1 :: rest) = ⟨[], []⟩ := by
  have hl : (t0 :: t1 :: t2 :: t3 :: l0 :: l1 :: a0 :: a1 :: rest).length =
      rest.length + 7 + 1 := by simp
  simp only [read, hl, readAuxF_cons]
  rw [if_neg (by omega)]

/-- A complete chunk at the cursor: it is emitted (and its payload recorded
when the type code is `b'data'`), and the parse of the whole buffer continues
as the parse of the bytes after the payload. -/
theorem read_cons (t0 t1 t2 t3 l0 l1 a0 a1 : Nat) (rest : List Nat)
    (h : le16 l0 l1 ≤ rest.length) :
    read (t0 :: t1 :: t2 :: t3 :: l0 :: l1 :: a0 :: a1 :: rest) =
      ⟨⟨⟨[t0, t1, t2, t3], le16 l0 l1, le16 a0 a1⟩, rest.take (le16 l0 l1)⟩
          :: (read (rest.drop (le16 l0 l1))).chunks,
       if [t0, t1, t2, t3] = DATA then
         rest.take (le16 l0 l1) :: (read (rest.drop (le16 l0 l1))).data_blocks
       else (read (rest.drop (le16 l0 l1))).data_blocks⟩ := by
  have hl : (t0 :: t1 :: t2 :: t3 :: l0 :: l1 :: a0 :: a1 :: rest).length =
      rest.length + 7 + 1 := by simp
  have hfuel : readAuxF (rest.length + 7) (rest.drop (le16 l0 l1)) =
      readAuxF (rest.drop (le16 l0 l1)).length (rest.drop (le16 l0 l1)) := by
    apply readAuxF_congr
    · simp only [List.length_drop]; omega
    · exact le_rfl
  simp only [read, hl, readAuxF_cons, if_pos h, hfuel]

/-- Helper: a buffer with at least 8 bytes splits as a header plus rest. -/
theorem exists_cons8 (buf : List Nat) (h : 8 ≤ buf.length) :
    ∃ t0 t1 t2 t3 l0 l1 a0 a1 rest,
      buf = t0 :: t1 :: t2 :: t3 :: l0 :: l1 :: a0 :: a1 :: rest := by
  match buf, h with
  | t0 :: t1 :: t2 :: t3 :: l0 :: l1 :: a0 :: a1 :: rest, _ =>
    exact ⟨t0, t1, t2, t3, l0, l1, a0, a1, rest, rfl⟩
  | [], h => simp at h
  | [t0], h => simp at h
  | [t0, t1], h => simp at h
  | [t0, t1, t2], h => simp at h
  | [t0, t1, t2, t3], h => simp at h
  | [t0, t1, t2, t3, l0], h => simp at h
  | [t0, t1, t2, t3, l0, l1], h => simp at h
  | [t0, t1, t2, t3, l0, l1, a0], h => simp at h

/-- Bounded-length strong induction payload for the consumption bound and the
payload-length invariant of `read`. -/
theorem read_sum_aux : ∀ (n : Nat) (buf : List Nat), buf.length ≤ n →
    (((read buf).chunks.map (fun c => 8 + c.header.length)).sum ≤ buf.length ∧
      ∀ c ∈ (read buf).chunks, c.data.length = c.header.length) := by
  intro n
  induction n with
  | zero =>
    intro buf h
    rw [read_short buf (by omega)]
    simp
  | succ n ih =>
    intro buf h
    by_cases h8 : buf.length < 8
    · rw [read_short buf h8]; simp
    · obtain ⟨t0, t1, t2, t3, l0, l1, a0, a1, rest, rfl⟩ := exists_cons8 buf (by omega)
      have hlen : (t0 :: t1 :: t2 :: t3 :: l0 :: l1 :: a0 :: a1 :: rest).length =
          rest.length + 8 := by simp
      by_cases hfit : le16 l0 l1 ≤ rest.length
      · rw [read_cons t0 t1 t2 t3 l0 l1 a0 a1 rest hfit]
        have hrec := ih (rest.drop (le16 l0 l1)) (by simp only [List.length_drop]; omega)
        constructor
        · simp only [List.map_cons, List.sum_cons, hlen]
          have := hrec.1
          simp only [List.length_drop] at this
          omega
        · intro c hc
          rcases List.mem_cons.mp hc with rfl | hc'
          · simp only [List.length_take]
            omega
          · exact hrec.2 c hc'
      · rw [read_stop t0 t1 t2 t3 l0 l1 a0 a1 rest (by omega)]
        simp

/-- The `data_blocks` list `read` accumulates is exactly the payloads of the
`data`-typed chunks, in order. -/
theorem read_data_blocks_aux : ∀ (n : Nat) (buf : List Nat), buf.length ≤ n →
    (read buf).data_blocks =
      ((read buf).chunks.filter (fun c => decide (c.header.chunk_type = DATA))).map
        (fun c => c.data) := by
  intro n
  induction n with
  | zero =>
    intro buf h
    rw [read_short buf (by omega)]
    rfl
  | succ n ih =>
    intro buf h
    by_cases h8 : buf.length < 8
    · rw [read_short buf h8]; rfl
    · obtain ⟨t0, t1, t2, t3, l0, l1, a0, a1, rest, rfl⟩ := exists_cons8 buf (by omega)
      by_cases hfit : le16 l0 l1 ≤ rest.length
      · rw [read_cons t0 t1 t2 t3 l0 l1 a0 a1 rest hfit]
        have hrec := ih (rest.drop (le16 l0 l1)) (by simp only [List.length_drop]; simp at h; omega)
        by_cases hd : [t0, t1, t2, t3] = DATA
        · simp [hd, hrec]
        · simp [hd, hrec]
      · rw [read_stop t0 t1 t2 t3 l0 l1 a0 a1 rest (by omega)]; rfl

/-- `read`-level form of `read_data_blocks_aux`. -/
theorem read_data_blocks (buf : List Nat) :
    (read buf).data_blocks =
      ((read buf).chunks.filter (fun c => decide (c.header.chunk_type = DATA))).map
        (fun c => c.data) :=
  read_data_blocks_aux buf.length buf le_rfl

/-- Structural invariant of every chunk `read` emits: a 4-byte type code, a
payload of exactly the declared length, and 16-bit header fields. -/
def ChunkWF (c : Chunk) : Prop :=
  c.header.chunk_type.length = 4 ∧ c.data.length = c.header.length ∧
    c.header.length < 65536 ∧ c.header.aux_data < 65536

/-- Every chunk parsed from a buffer of genuine bytes is well-formed. -/
theorem read_wf_aux : ∀ (n : Nat) (buf : List Nat), buf.length ≤ n →
    (∀ b ∈ buf, b < 256) → ∀ c ∈ (read buf).chunks, ChunkWF c := by
  intro n
  induction n with
  | zero =>
    intro buf h _
    rw [read_short buf (by omega)]
    simp
  | succ n ih =>
    intro buf h hb
    by_cases h8 : buf.length < 8
    · rw [read_short buf h8]; simp
    · obtain ⟨t0, t1, t2, t3, l0, l1, a0, a1, rest, rfl⟩ := exists_cons8 buf (by omega)
      by_cases hfit : le16 l0 l1 ≤ rest.length
      · rw [read_cons t0 t1 t2 t3 l0 l1 a0 a1 rest hfit]
        intro c hc
        rcases List.mem_cons.mp hc with rfl | hc'
        · refine ⟨rfl, ?_, ?_, ?_⟩
          · simp only [List.length_take]; omega
          · have hl0 : l0 < 256 := hb l0 (by simp)
            have hl1 : l1 < 256 := hb l1 (by simp)
            show le16 l0 l1 < 65536
            unfold le16; omega
          · have ha0 : a0 < 256 := hb a0 (by simp)
            have ha1 : a1 < 256 := hb a1 (by simp)
            show le16 a0 a1 < 65536
            unfold le16; omega
        · refine ih (rest.drop (le16 l0 l1)) ?_ ?_ c hc'
          · simp only [List.length_drop]; simp at h; omega
          · intro b hbm
            exact hb b (by
              have : b ∈ rest := List.drop_subset _ _ hbm
              simp [this])
      · rw [read_stop t0 t1 t2 t3 l0 l1 a0 a1 rest (by omega)]
        simp

/-- `read`-level form of `read_wf_aux`. -/
theorem read_wf (buf : List Nat) (hb : ∀ b ∈ buf, b < 256) :
    ∀ c ∈ (read buf).chunks, ChunkWF c :=
  read_wf_aux buf.length buf le_rfl hb

/-- Helper: a 4-element list splits into its elements. -/
theorem exists_four (l : List Nat) (h : l.length = 4) :
    ∃ a b c d, l = [a, b, c, d] := by
  match l, h with
  | [a, b, c, d], _ => exact ⟨a, b, c, d, rfl⟩

/-- The serialization loop of `get_all_chunks_as_bytes` flattens the
per-chunk serializations. -/
theorem foldl_serialize_eq : ∀ (cs : List Chunk) (acc : List Nat),
    cs.foldl (fun result c => result ++ serializeChunk c) acc =
      acc ++ (cs.map serializeChunk).flatten := by
  intro cs
  induction cs with
  | nil => intro acc; simp
  | cons c cs ih => intro acc; simp [ih, List.append_assoc]

/-- Decoding the serialization of any list of well-formed chunks gives back
exactly that list. -/
theorem read_serialize : ∀ cs : List Chunk, (∀ c ∈ cs, ChunkWF c) →
    (read ((cs.map serializeChunk).flatten)).chunks = cs := by
  intro cs
  induction cs with
  | nil =>
    intro _
    rw [show ((([] : List Chunk).map serializeChunk).flatten) = [] from rfl,
      read_short [] (by simp)]
  | cons c cs ih =>
    intro hwf
    obtain ⟨hct, hdl, hlen, haux⟩ := hwf c (List.mem_cons_self c cs)
    obtain ⟨t0, t1, t2, t3, hceq⟩ := exists_four c.header.chunk_type hct
    have hle : le16 (c.header.length % 256) (c.header.length / 256 % 256) = c.header.length := by
      unfold le16; omega
    have hla : le16 (c.header.aux_data % 256) (c.header.aux_data / 256 % 256) =
        c.header.aux_data := by
      unfold le16; omega
    have hflat : (((c :: cs).map serializeChunk).flatten) =
        t0 :: t1 :: t2 :: t3 :: (c.header.length % 256) :: (c.header.length / 256 % 256)
          :: (c.header.aux_data % 256) :: (c.header.aux_data / 256 % 256)
          :: (c.data ++ (cs.map serializeChunk).flatten) := by
      simp [serializeChunk, pack16, hceq, List.append_assoc]
    rw [hflat, read_cons _ _ _ _ _ _ _ _ _ (by
      rw [hle, List.length_append]
      omega)]
    rw [hle, hla]
    have htake : (c.data ++ (cs.map serializeChunk).flatten).take c.header.length = c.data := by
      rw [← hdl]; exact List.take_left c.data _
    have hdrop : (c.data ++ (cs.map serializeChunk).flatten).drop c.header.length =
        (cs.map serializeChunk).flatten := by
      rw [← hdl]; exact List.drop_left c.data _
    rw [htake, hdrop, ih (fun c' hc' => hwf c' (List.mem_cons_of_mem c hc'))]
    have hchunk : (⟨⟨[t0, t1, t2, t3], c.header.length, c.header.aux_data⟩, c.data⟩ : Chunk) = c := by
      rw [← hceq]
    rw [hchunk]

/-! ## Claims -/

/-- C1: round-trip fixed point.  Decoding any byte buffer, re-serializing the
parsed chunk sequence with `get_all_chunks_as_bytes` and decoding the output
reproduces the parsed state field for field: same chunks (type codes, lengths,
aux data, payloads) in the same order, and the same data-block list. -/
theorem decode_reserialize_fixed_point (buf : List Nat) (hb : ∀ b ∈ buf, b < 256) :
    read (get_all_chunks_as_bytes (read buf)) = read buf := by
  have hser : get_all_chunks_as_bytes (read buf) =
      ((read buf).chunks.map serializeChunk).flatten := by
    rw [get_all_chunks_as_bytes, foldl_serialize_eq]
    rfl
  have h1 : (read (get_all_chunks_as_bytes (read buf))).chunks = (read buf).chunks := by
    rw [hser]
    exact read_serialize _ (read_wf buf hb)
  have h2 : (read (get_all_chunks_as_bytes (read buf))).data_blocks =
      (read buf).data_blocks := by
    rw [read_data_blocks, read_data_blocks, h1]
  calc read (get_all_chunks_as_bytes (read buf))
      = ⟨(read (get_all_chunks_as_bytes (read buf))).chunks,
         (read (get_all_chunks_as_bytes (read buf))).data_blocks⟩ := rfl
    _ = ⟨(read buf).chunks, (read buf).data_blocks⟩ := by rw [h1, h2]
    _ = read buf := rfl

/-- Witness for C1 at a concrete buffer: one `FUJI` chunk, one `data` chunk
and a truncated trailing byte. -/
theorem decode_reserialize_fixed_point_witness :
    read (get_all_chunks_as_bytes
        (read [70, 85, 74, 73, 1, 0, 0, 0, 65, 100, 97, 116, 97, 2, 0, 0, 0, 250, 251, 9])) =
      read [70, 85, 74, 73, 1, 0, 0, 0, 65, 100, 97, 116, 97, 2, 0, 0, 0, 250, 251, 9] :=
  decode_reserialize_fixed_point
    [70, 85, 74, 73, 1, 0, 0, 0, 65, 100, 97, 116, 97, 2, 0, 0, 0, 250, 251, 9] (by decide)

/-- C2: truncation policy.  `read` is a total function (so no input raises);
a buffer with fewer than 8 bytes at the cursor yields no chunk for the
partial header; a declared payload length exceeding the remaining bytes
stops the parse without that chunk or any further chunk; and a complete
chunk is emitted followed by the parse of the remaining bytes — together
these equations say the result is exactly the complete chunks before the
first truncation or end of buffer. -/
theorem decode_truncation_policy :
    (∀ buf : List Nat, buf.length < 8 → (read buf).chunks = []) ∧
    (∀ t0 t1 t2 t3 l0 l1 a0 a1 : Nat, ∀ rest : List Nat, rest.length < le16 l0 l1 →
      (read (t0 :: t1 :: t2 :: t3 :: l0 :: l1 :: a0 :: a1 :: rest)).chunks = []) ∧
    (∀ t0 t1 t2 t3 l0 l1 a0 a1 : Nat, ∀ rest : List Nat, le16 l0 l1 ≤ rest.length →
      (read (t0 :: t1 :: t2 :: t3 :: l0 :: l1 :: a0 :: a1 :: rest)).chunks =
        ⟨⟨[t0, t1, t2, t3], le16 l0 l1, le16 a0 a1⟩, rest.take (le16 l0 l1)⟩
          :: (read (rest.drop (le16 l0 l1))).chunks) := by
  refine ⟨?_, ?_, ?_⟩
  · intro buf h
    rw [read_short buf h]
  · intro t0 t1 t2 t3 l0 l1 a0 a1 rest h
    rw [read_stop t0 t1 t2 t3 l0 l1 a0 a1 rest h]
  · intro t0 t1 t2 t3 l0 l1 a0 a1 rest h
    rw [read_cons t0 t1 t2 t3 l0 l1 a0 a1 rest h]

/-- Witness for C2: a 3-byte buffer, a chunk declaring 5 payload bytes with
only 2 remaining, and a complete 1-byte `data` chunk. -/
theorem decode_truncation_policy_witness :
    (read [1, 2, 3]).chunks = [] ∧
    (read [70, 85, 74, 73, 5, 0, 0, 0, 1, 2]).chunks = [] ∧
    (read [100, 97, 116, 97, 1, 0, 0, 0, 7]).chunks =
      ⟨⟨[100, 97, 116, 97], le16 1 0, le16 0 0⟩, [7].take (le16 1 0)⟩
        :: (read ([7].drop (le16 1 0))).chunks := by
  refine ⟨decode_truncation_policy.1 [1, 2, 3] (by decide),
    decode_truncation_policy.2.1 70 85 74 73 5 0 0 0 [1, 2] (by decide),
    decode_truncation_policy.2.2 100 97 116 97 1 0 0 0 [7] (by decide)⟩

/-- C3: `read` terminates on every buffer (it is a total function), the sum
of `8 + length` over the emitted chunks never exceeds the buffer length, and
every emitted payload has exactly the declared length. -/
theorem decode_consumption_bound (buf : List Nat) :
    (((read buf).chunks.map (fun c => 8 + c.header.length)).sum ≤ buf.length) ∧
      ∀ c ∈ (read buf).chunks, c.data.length = c.header.length :=
  read_sum_aux buf.length buf le_rfl

/-- Witness for C3: concrete buffer with one chunk and trailing garbage. -/
theorem decode_consumption_bound_witness :
    (((read [70, 85, 74, 73, 1, 0, 0, 0, 65, 9, 9]).chunks.map
        (fun c => 8 + c.header.length)).sum ≤ 11) ∧
      (⟨⟨[70, 85, 74, 73], 1, 0⟩, [65]⟩ : Chunk).data.length =
        (⟨⟨[70, 85, 74, 73], 1, 0⟩, [65]⟩ : Chunk).header.length :=
  ⟨(decode_consumption_bound [70, 85, 74, 73, 1, 0, 0, 0, 65, 9, 9]).1,
   (decode_consumption_bound [70, 85, 74, 73, 1, 0, 0, 0, 65, 9, 9]).2
     ⟨⟨[70, 85, 74, 73], 1, 0⟩, [65]⟩ (by decide)⟩

/-- The accumulation loop of `to_byte_array` flattens the payloads of the
`data`-typed chunks. -/
theorem foldl_data_eq : ∀ (cs : List Chunk) (acc : List Nat),
    cs.foldl (fun result c => if c.header.chunk_type = DATA then result ++ c.data else result)
        acc =
      acc ++ ((cs.filter (fun c => decide (c.header.chunk_type = DATA))).map
        (fun c => c.data)).flatten := by
  intro cs
  induction cs with
  | nil => intro acc; simp
  | cons c cs ih =>
    intro acc
    by_cases hd : c.header.chunk_type = DATA
    · simp [hd, ih, List.append_assoc]
    · simp [hd, ih]

/-- C5: `to_byte_array` is the concatenation, in original chunk order, of the
payloads of exactly the `data`-typed chunks, unmodified, and this equals the
concatenation of the list `get_data_blocks` returns. -/
theorem to_byte_array_concat (buf : List Nat) :
    to_byte_array (read buf) =
      (((read buf).chunks.filter (fun c => decide (c.header.chunk_type = DATA))).map
        (fun c => c.data)).flatten ∧
    to_byte_array (read buf) = (get_data_blocks (read buf)).flatten := by
  have h1 : to_byte_array (read buf) =
      (((read buf).chunks.filter (fun c => decide (c.header.chunk_type = DATA))).map
        (fun c => c.data)).flatten := by
    rw [to_byte_array, foldl_data_eq]
    rfl
  refine ⟨h1, ?_⟩
  rw [h1, get_data_blocks, read_data_blocks]

/-- The description field of the `get_metadata` loop: the last `FUJI` chunk
seen overwrites it, so the fold computes the decoded payload of the last
`FUJI` chunk (or keeps the initial value). -/
theorem metaFold_fst (cs : List Chunk) (init : Option (List Nat) × Nat) :
    (cs.foldl metaStep init).1 =
      match (cs.filter (fun c => decide (c.header.chunk_type = FUJI))).getLast? with
      | some c => some (descriptionText c.data)
      | none => init.1 := by
  induction cs using List.reverseRecOn with
  | nil => rfl
  | append_singleton l c ih =>
    rw [List.foldl_append, List.filter_append]
    simp only [List.foldl_cons, List.foldl_nil]
    by_cases hf : c.header.chunk_type = FUJI
    · have hfil : List.filter (fun c => decide (c.header.chunk_type = FUJI)) [c] = [c] := by
        simp [hf]
      rw [hfil, List.getLast?_concat]
      simp only [metaStep, if_pos hf]
    · have hfil : List.filter (fun c => decide (c.header.chunk_type = FUJI)) [c] = [] := by
        simp [hf]
      rw [hfil, List.append_nil, ← ih]
      simp only [metaStep, if_neg hf]
      split <;> rfl

/-- The baudrate field of the `get_metadata` loop: the last `baud` chunk with
at least 2 payload bytes overwrites it. -/
theorem metaFold_snd (cs : List Chunk) (init : Option (List Nat) × Nat) :
    (cs.foldl metaStep init).2 =
      match (cs.filter (fun c =>
          decide (c.header.chunk_type = BAUD) && decide (2 ≤ c.data.length))).getLast? with
      | some c => baudOf c.data
      | none => init.2 := by
  induction cs using List.reverseRecOn with
  | nil => rfl
  | append_singleton l c ih =>
    rw [List.foldl_append, List.filter_append]
    simp only [List.foldl_cons, List.foldl_nil]
    by_cases hb2 : c.header.chunk_type = BAUD
    · have hnf : ¬ c.header.chunk_type = FUJI := by rw [hb2]; decide
      by_cases hlen : 2 ≤ c.data.length
      · have hfil : List.filter (fun c =>
            decide (c.header.chunk_type = BAUD) && decide (2 ≤ c.data.length)) [c] = [c] := by
          simp [hb2, hlen]
        rw [hfil, List.getLast?_concat]
        simp only [metaStep, if_neg hnf, if_pos hb2, if_pos hlen]
      · have hfil : List.filter (fun c =>
            decide (c.header.chunk_type = BAUD) && decide (2 ≤ c.data.length)) [c] = [] := by
          simp [hlen]
        rw [hfil, List.append_nil, ← ih]
        simp only [metaStep, if_neg hnf, if_pos hb2, if_neg hlen]
    · have hfil : List.filter (fun c =>
          decide (c.header.chunk_type = BAUD) && decide (2 ≤ c.data.length)) [c] = [] := by
        simp [hb2]
      rw [hfil, List.append_nil, ← ih]
      by_cases hf : c.header.chunk_type = FUJI
      · simp only [metaStep, if_pos hf]
      · simp only [metaStep, if_neg hf, if_neg hb2]

/-- C4 counterexample: a buffer holding two `FUJI` chunks (payloads `A` and
`B`) and two `baud` chunks (payload values 256 and 257).  The claim says the
FIRST chunk of each kind determines the metadata, i.e. description
`descriptionText [65]` and baudrate `le16 0 1 = 256`; `get_metadata`
actually reports the LAST of each kind: description `some [66]` and baudrate
`le16 1 1 = 257`. -/
theorem get_metadata_first_wins_counterexample :
    (get_metadata (read [70, 85, 74, 73, 1, 0, 0, 0, 65,
        70, 85, 74, 73, 1, 0, 0, 0, 66,
        98, 97, 117, 100, 2, 0, 0, 0, 0, 1,
        98, 97, 117, 100, 2, 0, 0, 0, 1, 1])).description ≠ some (descriptionText [65]) ∧
    (get_metadata (read [70, 85, 74, 73, 1, 0, 0, 0, 65,
        70, 85, 74, 73, 1, 0, 0, 0, 66,
        98, 97, 117, 100, 2, 0, 0, 0, 0, 1,
        98, 97, 117, 100, 2, 0, 0, 0, 1, 1])).description = some (descriptionText [66]) ∧
    (get_metadata (read [70, 85, 74, 73, 1, 0, 0, 0, 65,
        70, 85, 74, 73, 1, 0, 0, 0, 66,
        98, 97, 117, 100, 2, 0, 0, 0, 0, 1,
        98, 97, 117, 100, 2, 0, 0, 0, 1, 1])).baudrate ≠ le16 0 1 ∧
    (get_metadata (read [70, 85, 74, 73, 1, 0, 0, 0, 65,
        70, 85, 74, 73, 1, 0, 0, 0, 66,
        98, 97, 117, 100, 2, 0, 0, 0, 0, 1,
        98, 97, 117, 100, 2, 0, 0, 0, 1, 1])).baudrate = le16 1 1 := by
  refine ⟨by decide, by decide, by decide, by decide⟩

/-- C4 (amended: LAST matching chunk of each kind wins, not the first):
for every parsed sequence, `description` is the decoded text of the last
`FUJI` chunk's payload (`none` when there is none), `baudrate` is the
little-endian 16-bit value of the first two payload bytes of the last `baud`
chunk with at least 2 payload bytes (default 600 otherwise), `chunk_count`
is the number of chunks and `data_block_count` the number of `data`
chunks. -/
theorem get_metadata_fields (buf : List Nat) :
    ((get_metadata (read buf)).description =
        (((read buf).chunks.filter
            (fun c => decide (c.header.chunk_type = FUJI))).getLast?).map
          (fun c => descriptionText c.data)) ∧
    ((get_metadata (read buf)).baudrate =
        match ((read buf).chunks.filter (fun c =>
            decide (c.header.chunk_type = BAUD) && decide (2 ≤ c.data.length))).getLast? with
        | some c => baudOf c.data
        | none => 600) ∧
    (get_metadata (read buf)).chunk_count = (read buf).chunks.length ∧
    (get_metadata (read buf)).data_block_count =
      ((read buf).chunks.filter (fun c => decide (c.header.chunk_type = DATA))).length := by
  refine ⟨?_, ?_, rfl, ?_⟩
  · have hd : (get_metadata (read buf)).description =
        ((read buf).chunks.foldl metaStep (none, 600)).1 := rfl
    rw [hd, metaFold_fst]
    cases ((read buf).chunks.filter (fun c => decide (c.header.chunk_type = FUJI))).getLast? with
    | none => rfl
    | some c => rfl
  · have hb : (get_metadata (read buf)).baudrate =
        ((read buf).chunks.foldl metaStep (none, 600)).2 := rfl
    rw [hb, metaFold_snd]
  · have hc : (get_metadata (read buf)).data_block_count =
        (read buf).data_blocks.length := rfl
    rw [hc, read_data_blocks, List.length_map]

/-- C7: metadata extraction is total in the payload bytes.  The description,
when present, is always `descriptionText` of some chunk's payload;
`descriptionText` falls back to the Latin-1 decoding exactly when the strict
UTF-8 decoding fails; and the Latin-1 fallback succeeds on every byte
sequence, producing one character per byte. -/
theorem get_metadata_never_raises :
    (∀ r : CASReader, (get_metadata r).description = none ∨
      ∃ c ∈ r.chunks, (get_metadata r).description = some (descriptionText c.data)) ∧
    (∀ d : List Nat, utf8Decode d = none → descriptionText d = latin1Decode d) ∧
    (∀ d t : List Nat, utf8Decode d = some t → descriptionText d = t) ∧
    (∀ d : List Nat, (latin1Decode d).length = d.length) := by
  refine ⟨?_, ?_, ?_, ?_⟩
  · intro r
    have hd : (get_metadata r).description = (r.chunks.foldl metaStep (none, 600)).1 := rfl
    rw [hd, metaFold_fst]
    cases hl : (r.chunks.filter (fun c => decide (c.header.chunk_type = FUJI))).getLast? with
    | none => exact Or.inl rfl
    | some c =>
      refine Or.inr ⟨c, ?_, rfl⟩
      have hmem : c ∈ r.chunks.filter (fun c => decide (c.header.chunk_type = FUJI)) := by
        have : c ∈ (r.chunks.filter
            (fun c => decide (c.header.chunk_type = FUJI))).getLast? := by
          rw [hl]; rfl
        obtain ⟨hne, rfl⟩ := List.mem_getLast?_eq_getLast this
        exact List.getLast_mem hne
      exact List.mem_of_mem_filter hmem
  · intro d h
    simp [descriptionText, h]
  · intro d t h
    simp [descriptionText, h]
  · intro d
    simp [latin1Decode]

/-- Witness for C7: the strict decoding fails on `[255]` and the fallback is
used; it succeeds on `[65]` and is kept. -/
theorem get_metadata_never_raises_witness :
    descriptionText [255] = latin1Decode [255] ∧ descriptionText [65] = [65] := by
  refine ⟨get_metadata_never_raises.2.1 [255] (by decide),
    get_metadata_never_raises.2.2.1 [65] [65] (by decide)⟩

/-- Length of the `get_chunk_info` result: one entry per chunk. -/
theorem chunkInfoGo_length : ∀ (cs : List Chunk) (i : Nat),
    (chunkInfoGo i cs).length = cs.length := by
  intro cs
  induction cs with
  | nil => intro i; rfl
  | cons c cs ih => intro i; simp [chunkInfoGo, ih]

/-- Entry `k` of the `get_chunk_info` loop started at index `i`. -/
theorem chunkInfoGo_getElem? : ∀ (cs : List Chunk) (i k : Nat),
    (chunkInfoGo i cs)[k]? =
      (cs[k]?).map (fun c =>
        (⟨i + k, asciiIgnore c.header.chunk_type, c.header.length, c.header.aux_data⟩ :
          ChunkInfo)) := by
  intro cs
  induction cs with
  | nil => intro i k; simp [chunkInfoGo]
  | cons c cs ih =>
    intro i k
    cases k with
    | zero => simp [chunkInfoGo]
    | succ k =>
      simp only [chunkInfoGo, List.getElem?_cons_succ]
      rw [ih (i + 1) k]
      simp only [show i + 1 + k = i + (k + 1) from by omega]

/-- C8 counterexample: a chunk whose type code is `[7, 255, 65, 66]`.  The
claim says bytes outside the printable range are replaced with a placeholder
character, which would render four characters; `get_chunk_info` decodes with
`errors='ignore'`, so the byte 255 is dropped entirely (three characters
remain) and the unprintable ASCII byte 7 is kept verbatim rather than
replaced. -/
theorem get_chunk_info_replace_counterexample :
    (get_chunk_info (read [7, 255, 65, 66, 0, 0, 0, 0])).map (fun i => i.type) =
      [[Char.ofNat 7, 'A', 'B']] ∧
    ((read [7, 255, 65, 66, 0, 0, 0, 0]).chunks.map
        (fun c => c.header.chunk_type.length)) = [4] ∧
    ¬ ([Char.ofNat 7, 'A', 'B'].length = 4) := by
  refine ⟨by decide, by decide, by decide⟩

/-- C8 (amended: `get_chunk_info` decodes the type code with
`errors='ignore'`, dropping bytes outside the ASCII range and keeping every
ASCII byte — printable or not — verbatim, never failing): it returns one
summary per chunk, in original order, whose entry `k` carries the zero-based
index `k`, the declared length, the aux data, and the type code rendered by
`asciiIgnore`. -/
theorem get_chunk_info_spec (r : CASReader) :
    (get_chunk_info r).length = r.chunks.length ∧
    ∀ k : Nat, (get_chunk_info r)[k]? =
      (r.chunks[k]?).map (fun c =>
        (⟨k, asciiIgnore c.header.chunk_type, c.header.length, c.header.aux_data⟩ :
          ChunkInfo)) := by
  refine ⟨chunkInfoGo_length r.chunks 0, fun k => ?_⟩
  have h := chunkInfoGo_getElem? r.chunks 0 k
  simpa using h

/-- Membership after a single `set.add`. -/
theorem mem_setAdd (s : List Nat) (i j : Nat) : j ∈ setAdd s i ↔ j ∈ s ∨ j = i := by
  unfold setAdd
  by_cases h : i ∈ s
  · rw [if_pos h]
    constructor
    · exact Or.inl
    · rintro (hj | rfl)
      · exact hj
      · exact h
  · rw [if_neg h]
    simp

/-- `set.add` keeps the element list duplicate-free. -/
theorem nodup_setAdd (s : List Nat) (i : Nat) (h : s.Nodup) : (setAdd s i).Nodup := by
  unfold setAdd
  by_cases hm : i ∈ s
  · rwa [if_pos hm]
  · rw [if_neg hm]
    simp [List.nodup_append, h, hm]

/-- Membership after adding a whole list of indices to the set. -/
theorem mem_foldl_setAdd : ∀ (ids : List Nat) (s : List Nat) (j : Nat),
    j ∈ ids.foldl setAdd s ↔ j ∈ s ∨ j ∈ ids := by
  intro ids
  induction ids with
  | nil => intro s j; simp
  | cons i ids ih =>
    intro s j
    rw [List.foldl_cons, ih (setAdd s i) j, mem_setAdd]
    simp [or_assoc]

/-- Adding a list of indices keeps the set duplicate-free. -/
theorem nodup_foldl_setAdd : ∀ (ids : List Nat) (s : List Nat), s.Nodup →
    (ids.foldl setAdd s).Nodup := by
  intro ids
  induction ids with
  | nil => intro s h; exact h
  | cons i ids ih => intro s h; exact ih (setAdd s i) (nodup_setAdd s i h)

/-- Every index a part contributes is in range. -/
theorem partSel_lt (part : List Char) (N : Nat) (ids : List Nat)
    (h : partSel part N = some ids) : ∀ i ∈ ids, i < N := by
  unfold partSel at h
  by_cases hc : part.contains '-'
  · rw [if_pos hc] at h
    cases h1 : pyInt (stripChars (splitFirst '-' part).1) with
    | none => rw [h1] at h; exact absurd h (by simp)
    | some st =>
      cases h2 : pyInt (stripChars (splitFirst '-' part).2) with
      | none => rw [h1, h2] at h; exact absurd h (by simp)
      | some en =>
        rw [h1, h2] at h
        injection h with h
        subst h
        intro i hi
        simp only [List.mem_map, List.mem_filter] at hi
        obtain ⟨j, ⟨_, hj⟩, rfl⟩ := hi
        simp only [Bool.and_eq_true, decide_eq_true_eq] at hj
        omega
  · rw [if_neg hc] at h
    cases h1 : pyInt part with
    | none => rw [h1] at h; exact absurd h (by simp)
    | some idx =>
      rw [h1] at h
      injection h with h
      subst h
      by_cases hr : 0 ≤ idx ∧ idx < (N : Int)
      · rw [if_pos hr]
        intro i hi
        rcases List.mem_singleton.mp hi with rfl
        omega
      · rw [if_neg hr]
        intro i hi
        exact absurd hi (List.not_mem_nil i)

/-- Membership in the set accumulated over the parts: exactly the initial
elements and the contributions of the parts. -/
theorem selFold_mem : ∀ (parts : List (List Char)) (N : Nat) (s t : List Nat),
    parts.foldlM (fun s part =>
        (partSel (stripChars part) N).map (fun ids => ids.foldl setAdd s)) s = some t →
    ∀ i : Nat, i ∈ t ↔ i ∈ s ∨ ∃ p ∈ parts, ∃ ids,
      partSel (stripChars p) N = some ids ∧ i ∈ ids := by
  intro parts N
  induction parts with
  | nil =>
    intro s t h i
    rw [List.foldlM_nil] at h
    injection h with h
    subst h
    simp
  | cons p ps ih =>
    intro s t h i
    rw [List.foldlM_cons] at h
    cases hp : partSel (stripChars p) N with
    | none => rw [hp] at h; exact absurd h (by simp)
    | some ids =>
      rw [hp] at h
      simp only [Option.map_some', Option.some_bind] at h
      rw [ih (ids.foldl setAdd s) t h i, mem_foldl_setAdd]
      constructor
      · rintro ((his | hids) | ⟨q, hq, ids', hq2, hiq⟩)
        · exact Or.inl his
        · exact Or.inr ⟨p, List.mem_cons_self p ps, ids, hp, hids⟩
        · exact Or.inr ⟨q, List.mem_cons_of_mem p hq, ids', hq2, hiq⟩
      · rintro (his | ⟨q, hq, ids', hq2, hiq⟩)
        · exact Or.inl (Or.inl his)
        · rcases List.mem_cons.mp hq with rfl | hq'
          · rw [hp] at hq2
            injection hq2 with e
            subst e
            exact Or.inl (Or.inr hiq)
          · exact Or.inr ⟨q, hq', ids', hq2, hiq⟩

/-- The set accumulated over the parts stays duplicate-free. -/
theorem selFold_nodup : ∀ (parts : List (List Char)) (N : Nat) (s t : List Nat),
    parts.foldlM (fun s part =>
        (partSel (stripChars part) N).map (fun ids => ids.foldl setAdd s)) s = some t →
    s.Nodup → t.Nodup := by
  intro parts N
  induction parts with
  | nil =>
    intro s t h hs
    rw [List.foldlM_nil] at h
    injection h with h
    subst h
    exact hs
  | cons p ps ih =>
    intro s t h hs
    rw [List.foldlM_cons] at h
    cases hp : partSel (stripChars p) N with
    | none => rw [hp] at h; exact absurd h (by simp)
    | some ids =>
      rw [hp] at h
      simp only [Option.map_some', Option.some_bind] at h
      exact ih (ids.foldl setAdd s) t h (nodup_foldl_setAdd ids s hs)

/-- C6: `parse_chunk_selection`.  The empty spec selects every index in
order; the stated concrete examples hold, including the `ParseError`
(`none`) on `"abc"`; every successful result is strictly ascending
(so deduplicated) with only in-range indices; and for a non-empty spec the
result holds exactly the in-range indices contributed by the
comma-delimited parts. -/
theorem parse_chunk_selection_spec :
    (∀ N : Nat, parse_chunk_selection [] N = some (List.range N)) ∧
    parse_chunk_selection ['1', ',', '3', '-', '5'] 10 = some [1, 3, 4, 5] ∧
    parse_chunk_selection ['0', '-', '2', ',', '2', '-', '4'] 10 = some [0, 1, 2, 3, 4] ∧
    parse_chunk_selection ['5', '-', '3'] 10 = some [] ∧
    parse_chunk_selection ['a', 'b', 'c'] 10 = none ∧
    (∀ (sp : List Char) (N : Nat) (l : List Nat), parse_chunk_selection sp N = some l →
      List.Sorted (· < ·) l ∧ ∀ i ∈ l, i < N) ∧
    (∀ (sp : List Char) (N : Nat) (l : List Nat), ¬ sp.isEmpty →
      parse_chunk_selection sp N = some l →
      ∀ i : Nat, i ∈ l ↔ ∃ p ∈ splitOnChar ',' sp, ∃ ids,
        partSel (stripChars p) N = some ids ∧ i ∈ ids) := by
  refine ⟨fun N => rfl, by decide, by decide, by decide, by decide, ?_, ?_⟩
  · intro sp N l h
    by_cases he : sp.isEmpty
    · rw [parse_chunk_selection, if_pos he] at h
      injection h with h
      subst h
      exact ⟨List.sorted_lt_range N, fun i hi => List.mem_range.mp hi⟩
    · rw [parse_chunk_selection, if_neg he] at h
      obtain ⟨t, ht, rfl⟩ := Option.map_eq_some'.mp h
      have hnd : t.Nodup := selFold_nodup _ N [] t ht List.nodup_nil
      have hsorted : List.Sorted (· ≤ ·) (List.insertionSort (· ≤ ·) t) :=
        List.sorted_insertionSort _ t
      have hperm := List.perm_insertionSort (· ≤ ·) t
      have hnd' : (List.insertionSort (· ≤ ·) t).Nodup := hperm.nodup_iff.mpr hnd
      refine ⟨hsorted.lt_of_le hnd', fun i hi => ?_⟩
      have hit : i ∈ t := hperm.mem_iff.mp hi
      rcases (selFold_mem _ N [] t ht i).mp hit with his | ⟨p, _, ids, hpsel, hiid⟩
      · exact absurd his (List.not_mem_nil i)
      · exact partSel_lt _ N ids hpsel i hiid
  · intro sp N l he h
    rw [parse_chunk_selection, if_neg he] at h
    obtain ⟨t, ht, rfl⟩ := Option.map_eq_some'.mp h
    intro i
    rw [(List.perm_insertionSort (· ≤ ·) t).mem_iff, selFold_mem _ N [] t ht i]
    simp

/-- Witness for C6, discharging the hypotheses of the two general conjuncts
at the concrete spec `"1,3-5"` with 10 chunks. -/
theorem parse_chunk_selection_spec_witness :
    parse_chunk_selection [] 3 = some [0, 1, 2] ∧
    (List.Sorted (· < ·) [1, 3, 4, 5] ∧ ∀ i ∈ [1, 3, 4, 5], i < 10) ∧
    (3 ∈ [1, 3, 4, 5] ↔ ∃ p ∈ splitOnChar ',' ['1', ',', '3', '-', '5'], ∃ ids,
      partSel (stripChars p) 10 = some ids ∧ 3 ∈ ids) := by
  refine ⟨parse_chunk_selection_spec.1 3,
    parse_chunk_selection_spec.2.2.2.2.2.1 ['1', ',', '3', '-', '5'] 10 [1, 3, 4, 5] (by decide),
    parse_chunk_selection_spec.2.2.2.2.2.2 ['1', ',', '3', '-', '5'] 10 [1, 3, 4, 5] (by decide)
      (by decide) 3⟩

/-- Number of dump rows: one per 16-byte slice, rounding up. -/
theorem rows_length (d : List Nat) : (rows d).length = (d.length + 15) / 16 := by
  simp [rows, rowOffsets]

/-- Skipping out-of-range indices does not change the collected lines. -/
theorem dumpLines_filter (r : CASReader) (l : List Int) (sh sa : Bool) :
    dumpLines r l sh sa =
      dumpLines r (l.filter (fun i =>
        decide (0 ≤ i) && decide (i.toNat < r.chunks.length))) sh sa := by
  induction l with
  | nil => rfl
  | cons idx rest ih =>
    rw [List.filter_cons]
    by_cases h : 0 ≤ idx ∧ idx.toNat < r.chunks.length
    · rw [if_pos (by simp [h.1, h.2])]
      simp only [dumpLines]
      rw [ih]
    · rw [if_neg (by simpa using h)]
      simp only [dumpLines]
      rw [dif_neg h, ih]
      simp

/-- C9: dump formatting.  An empty payload renders the `(empty)` marker and
no byte rows; a 16-byte payload renders exactly one row (section of four
lines: header, dashes, one row, blank) and a 17-byte payload exactly two
(five lines); in the ASCII column a byte renders as its character exactly
when `0x20 ≤ b ≤ 0x7E` and as `'.'` otherwise, and the ASCII column of a
row is the bytes mapped through that rendering; selected indices outside
`[0, chunkCount)` are silently skipped (`dump_chunks` is total — nothing is
raised). -/
theorem dump_chunks_formatting :
    (∀ (idx : Nat) (c : Chunk) (sh sa : Bool), c.data = [] →
      chunkSection idx c sh sa = [headerLine idx c, dashLine, emptyLine, []]) ∧
    (∀ (idx : Nat) (c : Chunk) (sh sa : Bool), c.data.length = 16 →
      (chunkSection idx c sh sa).length = 4) ∧
    (∀ (idx : Nat) (c : Chunk) (sh sa : Bool), c.data.length = 17 →
      (chunkSection idx c sh sa).length = 5) ∧
    (∀ b : Nat, (32 ≤ b ∧ b ≤ 126 → asciiRender b = Char.ofNat b) ∧
      (¬ (32 ≤ b ∧ b ≤ 126) → asciiRender b = '.')) ∧
    (∀ (sh : Bool) (ofs : Nat) (line : List Nat), ∃ pre : List Char,
      rowLine sh true ofs line = pre ++ line.map asciiRender) ∧
    (∀ (r : CASReader) (l : List Int) (sh sa : Bool),
      dump_chunks r (some l) sh sa =
        dump_chunks r (some (l.filter (fun i =>
          decide (0 ≤ i) && decide (i.toNat < r.chunks.length)))) sh sa) := by
  refine ⟨?_, ?_, ?_, ?_, ?_, ?_⟩
  · intro idx c sh sa h
    simp [chunkSection, h]
  · intro idx c sh sa h
    have hne : c.data.isEmpty = false := by
      cases hd : c.data with
      | nil => rw [hd] at h; simp at h
      | cons x xs => rfl
    simp [chunkSection, hne, rows_length, h]
  · intro idx c sh sa h
    have hne : c.data.isEmpty = false := by
      cases hd : c.data with
      | nil => rw [hd] at h; simp at h
      | cons x xs => rfl
    simp [chunkSection, hne, rows_length, h]
  · intro b
    constructor
    · intro h
      unfold asciiRender
      rw [if_pos ⟨h.1, by omega⟩]
    · intro h
      unfold asciiRender
      rw [if_neg (by omega)]
  · intro sh ofs line
    cases sh with
    | false =>
      exact ⟨zeroPad 4 (hexStr ofs) ++ [':'] ++ [' '], by
        simp [rowLine, List.intercalate, List.append_assoc]⟩
    | true =>
      exact ⟨zeroPad 4 (hexStr ofs) ++ [':'] ++ [' ']
          ++ ljust 48 (List.intercalate [' '] (line.map (fun b => zeroPad 2 (hexStr b))))
          ++ [' '] ++ ['|'] ++ [' '], by
        simp [rowLine, List.intercalate, List.append_assoc]⟩
  · intro r l sh sa
    show List.intercalate ['\n'] (dumpLines r l sh sa) = _
    rw [dumpLines_filter r l sh sa]
    rfl

/-- Witness for C9 at concrete chunks: empty payload, a 16-byte payload, a
17-byte payload, byte renderings, a row, and an out-of-range selection. -/
theorem dump_chunks_formatting_witness :
    chunkSection 0 ⟨⟨[70, 85, 74, 73], 0, 0⟩, []⟩ true false =
      [headerLine 0 ⟨⟨[70, 85, 74, 73], 0, 0⟩, []⟩, dashLine, emptyLine, []] ∧
    (chunkSection 1 ⟨⟨[100, 97, 116, 97], 16, 0⟩, List.replicate 16 0⟩ true true).length = 4 ∧
    (chunkSection 2 ⟨⟨[100, 97, 116, 97], 17, 0⟩, List.replicate 17 0⟩ false true).length = 5 ∧
    asciiRender 65 = Char.ofNat 65 ∧ asciiRender 31 = '.' ∧
    dump_chunks (read [70, 85, 74, 73, 0, 0, 0, 0]) (some [5, 0]) true false =
      dump_chunks (read [70, 85, 74, 73, 0, 0, 0, 0]) (some (([5, 0] : List Int).filter
        (fun i => decide (0 ≤ i)
          && decide (i.toNat < (read [70, 85, 74, 73, 0, 0, 0, 0]).chunks.length)))) true false := by
  refine ⟨dump_chunks_formatting.1 0 ⟨⟨[70, 85, 74, 73], 0, 0⟩, []⟩ true false rfl,
    dump_chunks_formatting.2.1 1 ⟨⟨[100, 97, 116, 97], 16, 0⟩, List.replicate 16 0⟩ true true
      (by decide),
    dump_chunks_formatting.2.2.1 2 ⟨⟨[100, 97, 116, 97], 17, 0⟩, List.replicate 17 0⟩ false true
      (by decide),
    (dump_chunks_formatting.2.2.2.1 65).1 (by decide),
    (dump_chunks_formatting.2.2.2.1 31).2 (by decide),
    dump_chunks_formatting.2.2.2.2.2 (read [70, 85, 74, 73, 0, 0, 0, 0]) [5, 0] true false⟩

set_option maxRecDepth 16384 in
/-- C10: an explicit selection list is rendered in exactly the order given,
one section per occurrence — `dump_chunks` neither sorts nor deduplicates
it.  The cons equation shows sections follow the list order; the concrete
reader (one `FUJI` chunk then one `data` chunk) dumped with `[1, 0, 1]`
shows a duplicated index rendered once per occurrence, and the inequalities
show `[1, 0]` is not rendered as `[0, 1]` nor `[1, 1]` as `[1]`. -/
theorem dump_chunks_explicit_order :
    (∀ (r : CASReader) (idx : Int) (l : List Int) (sh sa : Bool),
      dumpLines r (idx :: l) sh sa = dumpLines r [idx] sh sa ++ dumpLines r l sh sa) ∧
    dumpLines (read [70, 85, 74, 73, 1, 0, 0, 0, 65, 100, 97, 116, 97, 1, 0, 0, 0, 66])
        [1, 0, 1] true false =
      chunkSection 1 ⟨⟨[100, 97, 116, 97], 1, 0⟩, [66]⟩ true false
        ++ chunkSection 0 ⟨⟨[70, 85, 74, 73], 1, 0⟩, [65]⟩ true false
        ++ chunkSection 1 ⟨⟨[100, 97, 116, 97], 1, 0⟩, [66]⟩ true false ∧
    dump_chunks (read [70, 85, 74, 73, 1, 0, 0, 0, 65, 100, 97, 116, 97, 1, 0, 0, 0, 66])
        (some [1, 0]) true false ≠
      dump_chunks (read [70, 85, 74, 73, 1, 0, 0, 0, 65, 100, 97, 116, 97, 1, 0, 0, 0, 66])
        (some [0, 1]) true false ∧
    dump_chunks (read [70, 85, 74, 73, 1, 0, 0, 0, 65, 100, 97, 116, 97, 1, 0, 0, 0, 66])
        (some [1, 1]) true false ≠
      dump_chunks (read [70, 85, 74, 73, 1, 0, 0, 0, 65, 100, 97, 116, 97, 1, 0, 0, 0, 66])
        (some [1]) true false := by
  refine ⟨?_, by decide, by decide, by decide⟩
  intro r idx l sh sa
  simp only [dumpLines]
  simp [List.append_assoc]

end PyCAS
